import Mathlib

/-
  Formal model of `src/main.py` (ParticlesInEMG-Fields): charged particles
  integrated under electric, magnetic and gravitational fields with Euler
  and RK4 steppers.

  Modelling choices:
  * Scalars are `ℚ` (the Python program uses IEEE doubles; all claims are
    about the exact algebraic recurrences, so exact rationals are used).
  * A 3-vector is `ℚ × ℚ × ℚ`; numpy's componentwise `+`, scalar `*` and
    `np.cross` on length-3 arrays become `+`, `•` and `cross`.
  * A particle's `rs` / `vs` history arrays (shape (n,3), `np.append`
    along axis 0) become `List Vec3`, with `rs[-1]` read via `getLastD`.
  * Python raises `ZeroDivisionError` on `self.q/self.m` when `m = 0`;
    fallible steps therefore return `Option Particle`, `none` modelling
    the raised exception (nothing is appended in that case).
  * The field functions are parameters (`EF BF GF : Vec3 → Vec3`): the
    source hardcodes one configuration (`Esrc`, `Bsrc`, `gsrc` below) but
    they are operator-configurable; claims quantify over configurations.
-/

namespace PIF

/-- A 3-component vector over ℚ, modelling a length-3 numpy array. -/
abbrev Vec3 : Type := ℚ × ℚ × ℚ

/-- Right-hand-rule cross product of 3-vectors, the semantics of
`np.cross` on two length-3 arrays. -/
def cross (u v : Vec3) : Vec3 :=
  (u.2.1 * v.2.2 - u.2.2 * v.2.1,
   u.2.2 * v.1 - u.1 * v.2.2,
   u.1 * v.2.1 - u.2.1 * v.1)

/-- Source `E(r)` (main.py line 12–13): the hardcoded electric field. -/
def Esrc (_r : Vec3) : Vec3 := (0, 0, 0)

/-- Source `B(r)` (main.py line 17–19): the hardcoded magnetic field,
`[0, 1e-10, 0]` tesla. -/
def Bsrc (_r : Vec3) : Vec3 := (0, 1 / 10000000000, 0)

/-- Source `g(r)` (main.py line 22–23): the hardcoded gravitational field. -/
def gsrc (_r : Vec3) : Vec3 := (0, 0, 0)

/-- The all-zero field configuration (used by the straight-line-motion
property of the spec). -/
def zeroField (_r : Vec3) : Vec3 := (0, 0, 0)

/-- Source `a(qByM, r, v)` (main.py lines 27–28):
`qByM*(E(r) + np.cross(v, B(r))) + g(r)`, with the field functions made
explicit parameters. -/
def a (EF BF GF : Vec3 → Vec3) (qByM : ℚ) (r v : Vec3) : Vec3 :=
  qByM • (EF r + cross v (BF r)) + GF r

/-- Source `Particle.__init__` state (main.py lines 59–66): charge `q`,
mass `m`, position history `rs`, velocity history `vs`.  The constructor
stores its arguments unchecked. -/
structure Particle where
  q : ℚ
  m : ℚ
  rs : List Vec3
  vs : List Vec3
deriving DecidableEq, Repr

/-- `self.rs[-1]`: the last recorded position. -/
def lastR (p : Particle) : Vec3 := p.rs.getLastD 0

/-- `self.vs[-1]`: the last recorded velocity. -/
def lastV (p : Particle) : Vec3 := p.vs.getLastD 0

/-- Source `Particle.updateEuler` (main.py lines 69–87).  `none` models
the `ZeroDivisionError` that `self.q/self.m` raises when `m = 0` (raised
before anything is appended).  Note the dead store `rf = ri + vi*dt`
(line 85), immediately overwritten by the trapezoidal update (line 86);
scalar multiplication `x*dt` is written `dt • x`. -/
def Particle.updateEuler (EF BF GF : Vec3 → Vec3) (dt : ℚ) (p : Particle) :
    Option Particle :=
  if p.m = 0 then none else
    let ri := lastR p
    let vi := lastV p
    let qByM := p.q / p.m
    let vf := vi + dt • a EF BF GF qByM ri vi
    let rf := ri + dt • vi
    let rf := ri + (dt / 2) • (vi + vf)
    some { p with rs := p.rs ++ [rf], vs := p.vs ++ [vf] }

/-- Source `Particle.updateRK4` (main.py lines 90–120); same conventions
as `Particle.updateEuler`. -/
def Particle.updateRK4 (EF BF GF : Vec3 → Vec3) (dt : ℚ) (p : Particle) :
    Option Particle :=
  if p.m = 0 then none else
    let ri := lastR p
    let vi := lastV p
    let qByM := p.q / p.m
    let k1v := a EF BF GF qByM ri vi
    let k1r := vi
    let k2v := a EF BF GF qByM (ri + (dt / 2) • k1r) k1r
    let k2r := vi + (dt / 2) • k1v
    let k3v := a EF BF GF qByM (ri + (dt / 2) • k2r) k2r
    let k3r := vi + (dt / 2) • k2v
    let k4v := a EF BF GF qByM (ri + dt • k3r) k3r
    let k4r := vi + dt • k3v
    let vf := vi + (dt / 6) • (k1v + (2 : ℚ) • k2v + (2 : ℚ) • k3v + k4v)
    let rf := ri + (dt / 6) • (k1r + (2 : ℚ) • k2r + (2 : ℚ) • k3r + k4r)
    some { p with rs := p.rs ++ [rf], vs := p.vs ++ [vf] }

/-- Python's `int()` applied to a real quotient: truncation toward zero. -/
def pyInt (x : ℚ) : ℤ := if 0 ≤ x then ⌊x⌋ else ⌈x⌉

/-- Source `n = int(t/dt)` (main.py line 185): the iteration count
computed by `main`. -/
def mainStepCount (t dt : ℚ) : ℤ := pyInt (t / dt)

/-- The integrator `main` selects (main.py lines 194–197): `updateRK4`
when the string equals `"RK4"`, otherwise `updateEuler`. -/
def stepOf (EF BF GF : Vec3 → Vec3) (integrator : String) (dt : ℚ) :
    Particle → Option Particle :=
  if integrator = "RK4" then Particle.updateRK4 EF BF GF dt
  else Particle.updateEuler EF BF GF dt

/-- One pass of the inner loop `for particle in particles` (main.py
lines 193–197): each particle is stepped once, in collection order; a
raised exception (`none`) aborts the run. -/
def mapOpt {α β : Type} (f : α → Option β) : List α → Option (List β)
  | [] => some []
  | x :: xs =>
    match f x with
    | none => none
    | some y =>
      match mapOpt f xs with
      | none => none
      | some ys => some (y :: ys)

/-- The outer loop `for i in range(n)` (main.py line 188): `n` rounds of
the inner loop.  The progress print (lines 189–190) is a side channel
with no effect on the data and is not modelled. -/
def runLoop (step : Particle → Option Particle) :
    Nat → List Particle → Option (List Particle)
  | 0, ps => some ps
  | n + 1, ps =>
    match mapOpt step ps with
    | none => none
    | some qs => runLoop step n qs

/-- `n` successive integration steps of a single particle. -/
def stepN (step : Particle → Option Particle) :
    Nat → Particle → Option Particle
  | 0, p => some p
  | n + 1, p =>
    match step p with
    | none => none
    | some q => stepN step n q

/-- Source `main(particles, t, dt, integrator)` (main.py lines 182–197),
restricted to its data effect: `n = int(t/dt)` iterations of the
per-particle update (`range(n)` is empty for `n ≤ 0`, hence `toNat`).
Plotting (line 200) consumes the result and is not modelled. -/
def mainRun (EF BF GF : Vec3 → Vec3) (particles : List Particle)
    (t dt : ℚ) (integrator : String) : Option (List Particle) :=
  runLoop (stepOf EF BF GF integrator dt) (mainStepCount t dt).toNat particles

/-! Helper definitions naming the appended values of the two steppers,
and concrete data used to instantiate theorems with hypotheses. -/

/-- The velocity appended by one Euler step (main.py line 81). -/
def eulerV (EF BF GF : Vec3 → Vec3) (qByM dt : ℚ) (ri vi : Vec3) : Vec3 :=
  vi + dt • a EF BF GF qByM ri vi

/-- The position appended by one Euler step (main.py line 86). -/
def eulerR (EF BF GF : Vec3 → Vec3) (qByM dt : ℚ) (ri vi : Vec3) : Vec3 :=
  ri + (dt / 2) • (vi + eulerV EF BF GF qByM dt ri vi)

/-- The velocity appended by one RK4 step (main.py line 115). -/
def rk4V (EF BF GF : Vec3 → Vec3) (qByM dt : ℚ) (ri vi : Vec3) : Vec3 :=
  let k1v := a EF BF GF qByM ri vi
  let k1r := vi
  let k2v := a EF BF GF qByM (ri + (dt / 2) • k1r) k1r
  let k2r := vi + (dt / 2) • k1v
  let k3v := a EF BF GF qByM (ri + (dt / 2) • k2r) k2r
  let k3r := vi + (dt / 2) • k2v
  let k4v := a EF BF GF qByM (ri + dt • k3r) k3r
  vi + (dt / 6) • (k1v + (2 : ℚ) • k2v + (2 : ℚ) • k3v + k4v)

/-- The position appended by one RK4 step (main.py line 119). -/
def rk4R (EF BF GF : Vec3 → Vec3) (qByM dt : ℚ) (ri vi : Vec3) : Vec3 :=
  let k1v := a EF BF GF qByM ri vi
  let k1r := vi
  let k2v := a EF BF GF qByM (ri + (dt / 2) • k1r) k1r
  let k2r := vi + (dt / 2) • k1v
  let k3v := a EF BF GF qByM (ri + (dt / 2) • k2r) k2r
  let k3r := vi + (dt / 2) • k2v
  let k4r := vi + dt • k3v
  ri + (dt / 6) • (k1r + (2 : ℚ) • k2r + (2 : ℚ) • k3r + k4r)

/-- The constant unit-x electric field, a test configuration. -/
def unitE (_r : Vec3) : Vec3 := (1, 0, 0)

/-- Sample particle: unit charge and mass, at rest at the origin. -/
def pRest : Particle := ⟨1, 1, [(0, 0, 0)], [(0, 0, 0)]⟩

/-- Sample particle: unit charge and mass, unit x-velocity. -/
def pUnit : Particle := ⟨1, 1, [(0, 0, 0)], [(1, 0, 0)]⟩

/-- Sample particle with mass 0, as stored unchecked by the constructor. -/
def pMass0 : Particle := ⟨1, 0, [(0, 0, 0)], [(0, 0, 0)]⟩

/-- Componentwise extensionality for 3-vectors. -/
theorem Vec3.ext3 {u v : Vec3} (h1 : u.1 = v.1) (h2 : u.2.1 = v.2.1)
    (h3 : u.2.2 = v.2.2) : u = v := by
  obtain ⟨x1, x2, x3⟩ := u
  obtain ⟨y1, y2, y3⟩ := v
  simp_all

/-- For nonzero mass, one Euler step appends exactly `eulerR`/`eulerV`. -/
theorem updateEuler_eq (EF BF GF : Vec3 → Vec3) (dt : ℚ) (p : Particle)
    (hm : p.m ≠ 0) :
    Particle.updateEuler EF BF GF dt p =
      some { p with
        rs := p.rs ++ [eulerR EF BF GF (p.q / p.m) dt (lastR p) (lastV p)],
        vs := p.vs ++ [eulerV EF BF GF (p.q / p.m) dt (lastR p) (lastV p)] } := by
  rw [Particle.updateEuler, if_neg hm]
  rfl

/-- For nonzero mass, one RK4 step appends exactly `rk4R`/`rk4V`. -/
theorem updateRK4_eq (EF BF GF : Vec3 → Vec3) (dt : ℚ) (p : Particle)
    (hm : p.m ≠ 0) :
    Particle.updateRK4 EF BF GF dt p =
      some { p with
        rs := p.rs ++ [rk4R EF BF GF (p.q / p.m) dt (lastR p) (lastV p)],
        vs := p.vs ++ [rk4V EF BF GF (p.q / p.m) dt (lastR p) (lastV p)] } := by
  rw [Particle.updateRK4, if_neg hm]
  rfl

/-- An Euler step raises (returns `none`) exactly when the mass is 0. -/
theorem updateEuler_none_iff (EF BF GF : Vec3 → Vec3) (dt : ℚ) (p : Particle) :
    Particle.updateEuler EF BF GF dt p = none ↔ p.m = 0 := by
  by_cases hm : p.m = 0 <;> simp [Particle.updateEuler, hm]

/-- An RK4 step raises (returns `none`) exactly when the mass is 0. -/
theorem updateRK4_none_iff (EF BF GF : Vec3 → Vec3) (dt : ℚ) (p : Particle) :
    Particle.updateRK4 EF BF GF dt p = none ↔ p.m = 0 := by
  by_cases hm : p.m = 0 <;> simp [Particle.updateRK4, hm]

/-- C1: for every field configuration, charge-to-mass ratio, position and
velocity, the acceleration function returns exactly
`qOverM • (E(r) + v × B(r)) + g(r)`, where `cross` is the right-hand-rule
cross product on 3-element vectors: it is additive and homogeneous in each
slot up to antisymmetry, and maps the right-handed standard basis
cyclically (e1 × e2 = e3, e2 × e3 = e1, e3 × e1 = e2).  Purity and
determinism hold because `a` is a total function of its arguments. -/
theorem C1_acceleration_formula :
    (∀ (EF BF GF : Vec3 → Vec3) (qOverM : ℚ) (r v : Vec3),
        a EF BF GF qOverM r v = qOverM • (EF r + cross v (BF r)) + GF r) ∧
    (∀ u w v : Vec3, cross (u + w) v = cross u v + cross w v) ∧
    (∀ (c : ℚ) (u v : Vec3), cross (c • u) v = c • cross u v) ∧
    (∀ u v : Vec3, cross u v = -cross v u) ∧
    cross (1, 0, 0) (0, 1, 0) = ((0, 0, 1) : Vec3) ∧
    cross (0, 1, 0) (0, 0, 1) = ((1, 0, 0) : Vec3) ∧
    cross (0, 0, 1) (1, 0, 0) = ((0, 1, 0) : Vec3) := by
  refine ⟨fun _ _ _ _ _ _ => rfl, ?_, ?_, ?_, ?_, ?_, ?_⟩
  · intro u w v
    obtain ⟨x1, x2, x3⟩ := u
    obtain ⟨y1, y2, y3⟩ := w
    obtain ⟨z1, z2, z3⟩ := v
    simp only [cross, Prod.mk_add_mk, Prod.mk.injEq]
    refine ⟨by ring, by ring, by ring⟩
  · intro c u v
    obtain ⟨x1, x2, x3⟩ := u
    obtain ⟨z1, z2, z3⟩ := v
    simp only [cross, Prod.smul_mk, smul_eq_mul, Prod.mk.injEq]
    refine ⟨by ring, by ring, by ring⟩
  · intro u v
    obtain ⟨x1, x2, x3⟩ := u
    obtain ⟨z1, z2, z3⟩ := v
    simp only [cross, Prod.neg_mk, Prod.mk.injEq]
    refine ⟨by ring, by ring, by ring⟩
  · norm_num [cross, Prod.ext_iff]
  · norm_num [cross, Prod.ext_iff]
  · norm_num [cross, Prod.ext_iff]

/-- C2: for every field configuration, particle with nonzero mass and dt,
one Euler step appends `v' = v + a(q/m, r, v)*dt` and the trapezoidal
position `r + ((v + v')/2)*dt`; moreover at a concrete input (unit E
field, particle at rest) the appended position differs from the naive
forward-Euler value `r + v*dt`. -/
theorem C2_euler_step :
    (∀ (EF BF GF : Vec3 → Vec3) (dt : ℚ) (p : Particle), p.m ≠ 0 →
        Particle.updateEuler EF BF GF dt p =
          some { p with
            rs := p.rs ++ [lastR p + (dt / 2) •
              (lastV p +
                (lastV p + dt • a EF BF GF (p.q / p.m) (lastR p) (lastV p)))],
            vs := p.vs ++
              [lastV p + dt • a EF BF GF (p.q / p.m) (lastR p) (lastV p)] }) ∧
    Particle.updateEuler unitE zeroField zeroField 1 pRest =
      some { pRest with
        rs := pRest.rs ++ [(1 / 2, 0, 0)], vs := pRest.vs ++ [(1, 0, 0)] } ∧
    ((1 / 2 : ℚ), (0 : ℚ), (0 : ℚ)) ≠ lastR pRest + (1 : ℚ) • lastV pRest := by
  refine ⟨?_, ?_, ?_⟩
  · intro EF BF GF dt p hm
    rw [Particle.updateEuler, if_neg hm]
  · norm_num [Particle.updateEuler, pRest, lastR, lastV, a, unitE, zeroField,
      cross, Prod.ext_iff]
  · norm_num [pRest, lastR, lastV, Prod.ext_iff]

/-- C2 witness: the universally quantified part of `C2_euler_step`
instantiated at the zero-field configuration, `dt = 1` and `pUnit`
(mass 1 ≠ 0). -/
theorem C2_euler_step_witness :
    pUnit.m ≠ 0 ∧
    Particle.updateEuler zeroField zeroField zeroField 1 pUnit =
      some { pUnit with
        rs := pUnit.rs ++ [lastR pUnit + ((1 : ℚ) / 2) •
          (lastV pUnit +
            (lastV pUnit + (1 : ℚ) •
              a zeroField zeroField zeroField (pUnit.q / pUnit.m)
                (lastR pUnit) (lastV pUnit)))],
        vs := pUnit.vs ++
          [lastV pUnit + (1 : ℚ) •
            a zeroField zeroField zeroField (pUnit.q / pUnit.m)
              (lastR pUnit) (lastV pUnit)] } :=
  ⟨by norm_num [pUnit],
   C2_euler_step.1 zeroField zeroField zeroField 1 pUnit (by norm_num [pUnit])⟩

/-- C3: for every field configuration, particle with nonzero mass and dt,
one RK4 step computes the four stages with each stage's acceleration call
taking the previous stage's velocity estimate as its velocity argument,
and appends the weighted averages `v + (dt/6)*(k1v + 2k2v + 2k3v + k4v)`
and `r + (dt/6)*(k1r + 2k2r + 2k3r + k4r)`. -/
theorem C3_rk4_step :
    ∀ (EF BF GF : Vec3 → Vec3) (dt : ℚ) (p : Particle), p.m ≠ 0 →
      Particle.updateRK4 EF BF GF dt p =
        (let ri := lastR p
         let vi := lastV p
         let k1v := a EF BF GF (p.q / p.m) ri vi
         let k1r := vi
         let k2v := a EF BF GF (p.q / p.m) (ri + (dt / 2) • k1r) k1r
         let k2r := vi + (dt / 2) • k1v
         let k3v := a EF BF GF (p.q / p.m) (ri + (dt / 2) • k2r) k2r
         let k3r := vi + (dt / 2) • k2v
         let k4v := a EF BF GF (p.q / p.m) (ri + dt • k3r) k3r
         let k4r := vi + dt • k3v
         some { p with
           rs := p.rs ++
             [ri + (dt / 6) • (k1r + (2 : ℚ) • k2r + (2 : ℚ) • k3r + k4r)],
           vs := p.vs ++
             [vi + (dt / 6) • (k1v + (2 : ℚ) • k2v + (2 : ℚ) • k3v + k4v)] }) := by
  intro EF BF GF dt p hm
  rw [Particle.updateRK4, if_neg hm]

/-- C3 witness: `C3_rk4_step` instantiated at the zero-field
configuration, `dt = 1` and `pUnit` (mass 1 ≠ 0). -/
theorem C3_rk4_step_witness :
    pUnit.m ≠ 0 ∧
    Particle.updateRK4 zeroField zeroField zeroField 1 pUnit =
      (let ri := lastR pUnit
       let vi := lastV pUnit
       let k1v := a zeroField zeroField zeroField (pUnit.q / pUnit.m) ri vi
       let k1r := vi
       let k2v := a zeroField zeroField zeroField (pUnit.q / pUnit.m)
         (ri + ((1 : ℚ) / 2) • k1r) k1r
       let k2r := vi + ((1 : ℚ) / 2) • k1v
       let k3v := a zeroField zeroField zeroField (pUnit.q / pUnit.m)
         (ri + ((1 : ℚ) / 2) • k2r) k2r
       let k3r := vi + ((1 : ℚ) / 2) • k2v
       let k4v := a zeroField zeroField zeroField (pUnit.q / pUnit.m)
         (ri + (1 : ℚ) • k3r) k3r
       let k4r := vi + (1 : ℚ) • k3v
       some { pUnit with
         rs := pUnit.rs ++
           [ri + ((1 : ℚ) / 6) • (k1r + (2 : ℚ) • k2r + (2 : ℚ) • k3r + k4r)],
         vs := pUnit.vs ++
           [vi + ((1 : ℚ) / 6) • (k1v + (2 : ℚ) • k2v + (2 : ℚ) • k3v + k4v)] }) :=
  ⟨by norm_num [pUnit], C3_rk4_step zeroField zeroField zeroField 1 pUnit
    (by norm_num [pUnit])⟩

/-- A successful Euler step forces nonzero mass and the explicit
appended form. -/
theorem updateEuler_some (EF BF GF : Vec3 → Vec3) (dt : ℚ) (p p' : Particle)
    (h : Particle.updateEuler EF BF GF dt p = some p') :
    p.m ≠ 0 ∧
      p' = { p with
        rs := p.rs ++ [eulerR EF BF GF (p.q / p.m) dt (lastR p) (lastV p)],
        vs := p.vs ++ [eulerV EF BF GF (p.q / p.m) dt (lastR p) (lastV p)] } := by
  by_cases hm : p.m = 0
  · rw [Particle.updateEuler, if_pos hm] at h
    cases h
  · rw [updateEuler_eq EF BF GF dt p hm] at h
    exact ⟨hm, (Option.some.inj h).symm⟩

/-- A successful RK4 step forces nonzero mass and the explicit
appended form. -/
theorem updateRK4_some (EF BF GF : Vec3 → Vec3) (dt : ℚ) (p p' : Particle)
    (h : Particle.updateRK4 EF BF GF dt p = some p') :
    p.m ≠ 0 ∧
      p' = { p with
        rs := p.rs ++ [rk4R EF BF GF (p.q / p.m) dt (lastR p) (lastV p)],
        vs := p.vs ++ [rk4V EF BF GF (p.q / p.m) dt (lastR p) (lastV p)] } := by
  by_cases hm : p.m = 0
  · rw [Particle.updateRK4, if_pos hm] at h
    cases h
  · rw [updateRK4_eq EF BF GF dt p hm] at h
    exact ⟨hm, (Option.some.inj h).symm⟩

/-- Any step of the appending shape grows both histories by one; `n` such
steps grow both by `n`. -/
theorem stepN_lengths (step : Particle → Option Particle)
    (hstep : ∀ p p' : Particle, step p = some p' →
      p'.rs.length = p.rs.length + 1 ∧ p'.vs.length = p.vs.length + 1) :
    ∀ (n : ℕ) (p p' : Particle), stepN step n p = some p' →
      p'.rs.length = p.rs.length + n ∧ p'.vs.length = p.vs.length + n := by
  intro n
  induction n with
  | zero =>
    intro p p' h
    simp only [stepN, Option.some.injEq] at h
    subst h
    exact ⟨rfl, rfl⟩
  | succ n ih =>
    intro p p' h
    cases hq : step p with
    | none => rw [stepN, hq] at h; cases h
    | some q =>
      have h' : stepN step n q = some p' := by rw [stepN, hq] at h; exact h
      obtain ⟨hr, hv⟩ := hstep p q hq
      obtain ⟨hr', hv'⟩ := ih q p' h'
      constructor <;> omega

/-- C4: a successful Euler or RK4 step appends exactly one element to each
history (so equality of the two lengths is preserved step by step), and
`n` successful steps from length-1 initial histories leave both histories
with length `n + 1`. -/
theorem C4_history_lengths :
    ∀ (EF BF GF : Vec3 → Vec3) (dt : ℚ),
      (∀ p p' : Particle, Particle.updateEuler EF BF GF dt p = some p' →
          p'.rs.length = p.rs.length + 1 ∧ p'.vs.length = p.vs.length + 1) ∧
      (∀ p p' : Particle, Particle.updateRK4 EF BF GF dt p = some p' →
          p'.rs.length = p.rs.length + 1 ∧ p'.vs.length = p.vs.length + 1) ∧
      (∀ (n : ℕ) (p p' : Particle), p.rs.length = 1 → p.vs.length = 1 →
          stepN (Particle.updateEuler EF BF GF dt) n p = some p' →
          p'.rs.length = n + 1 ∧ p'.vs.length = n + 1) ∧
      (∀ (n : ℕ) (p p' : Particle), p.rs.length = 1 → p.vs.length = 1 →
          stepN (Particle.updateRK4 EF BF GF dt) n p = some p' →
          p'.rs.length = n + 1 ∧ p'.vs.length = n + 1) := by
  intro EF BF GF dt
  have he : ∀ p p' : Particle, Particle.updateEuler EF BF GF dt p = some p' →
      p'.rs.length = p.rs.length + 1 ∧ p'.vs.length = p.vs.length + 1 := by
    intro p p' h
    obtain ⟨-, rfl⟩ := updateEuler_some EF BF GF dt p p' h
    simp
  have hk : ∀ p p' : Particle, Particle.updateRK4 EF BF GF dt p = some p' →
      p'.rs.length = p.rs.length + 1 ∧ p'.vs.length = p.vs.length + 1 := by
    intro p p' h
    obtain ⟨-, rfl⟩ := updateRK4_some EF BF GF dt p p' h
    simp
  refine ⟨he, hk, ?_, ?_⟩
  · intro n p p' h1 h2 h
    obtain ⟨hr, hv⟩ := stepN_lengths _ he n p p' h
    omega
  · intro n p p' h1 h2 h
    obtain ⟨hr, hv⟩ := stepN_lengths _ hk n p p' h
    omega

/-- The result of one Euler step on `pUnit` with zero fields. -/
def pUnit1 : Particle := ⟨1, 1, [(0, 0, 0), (1, 0, 0)], [(1, 0, 0), (1, 0, 0)]⟩

/-- C4 witness: `C4_history_lengths` applied to the concrete Euler step
`pUnit → pUnit1` (zero fields, dt = 1). -/
theorem C4_history_lengths_witness :
    Particle.updateEuler zeroField zeroField zeroField 1 pUnit = some pUnit1 ∧
    pUnit1.rs.length = pUnit.rs.length + 1 ∧
    pUnit1.vs.length = pUnit.vs.length + 1 := by
  have h : Particle.updateEuler zeroField zeroField zeroField 1 pUnit =
      some pUnit1 := by
    norm_num [Particle.updateEuler, pUnit, pUnit1, lastR, lastV, a, zeroField,
      cross, Prod.ext_iff]
  exact ⟨h, (C4_history_lengths zeroField zeroField zeroField 1).1 pUnit pUnit1 h⟩

/-- With all three fields zero, the acceleration vanishes everywhere. -/
theorem a_zeroField (q : ℚ) (r v : Vec3) :
    a zeroField zeroField zeroField q r v = 0 := by
  obtain ⟨v1, v2, v3⟩ := v
  simp [a, zeroField, cross, Prod.ext_iff]

/-- Last position of a particle after appending one entry to each
history. -/
theorem lastR_update (p : Particle) (x y : Vec3) :
    lastR { p with rs := p.rs ++ [x], vs := p.vs ++ [y] } = x := by
  simp [lastR, List.getLastD_concat]

/-- Last velocity of a particle after appending one entry to each
history. -/
theorem lastV_update (p : Particle) (x y : Vec3) :
    lastV { p with rs := p.rs ++ [x], vs := p.vs ++ [y] } = y := by
  simp [lastV, List.getLastD_concat]

/-- With zero fields, an Euler step keeps the velocity and moves the
position by `dt • v`. -/
theorem euler_zeroField (dt : ℚ) (p : Particle) (hm : p.m ≠ 0) :
    Particle.updateEuler zeroField zeroField zeroField dt p =
      some { p with rs := p.rs ++ [lastR p + dt • lastV p],
                    vs := p.vs ++ [lastV p] } := by
  have h2 : ∀ v : Vec3, (dt / 2) • (v + (v + dt • (0 : Vec3))) = dt • v := by
    intro v
    obtain ⟨v1, v2, v3⟩ := v
    simp only [Prod.smul_mk, Prod.mk_add_mk, smul_eq_mul, Prod.mk.injEq,
      Prod.mk_zero_zero]
    norm_num
    refine ⟨by ring, by ring, by ring⟩
  rw [updateEuler_eq zeroField zeroField zeroField dt p hm]
  simp only [eulerR, eulerV, a_zeroField]
  rw [h2, smul_zero, add_zero]

/-- With zero fields, an RK4 step keeps the velocity and moves the
position by `dt • v`. -/
theorem rk4_zeroField (dt : ℚ) (p : Particle) (hm : p.m ≠ 0) :
    Particle.updateRK4 zeroField zeroField zeroField dt p =
      some { p with rs := p.rs ++ [lastR p + dt • lastV p],
                    vs := p.vs ++ [lastV p] } := by
  have h6 : ∀ v : Vec3, (dt / 6) • (v + (2 : ℚ) • v + (2 : ℚ) • v + v) = dt • v := by
    intro v
    obtain ⟨v1, v2, v3⟩ := v
    simp only [Prod.smul_mk, Prod.mk_add_mk, smul_eq_mul, Prod.mk.injEq]
    refine ⟨by ring, by ring, by ring⟩
  rw [updateRK4_eq zeroField zeroField zeroField dt p hm]
  simp only [rk4R, rk4V, a_zeroField, smul_zero, add_zero]
  rw [h6]

/-- `n` steps of any zero-field-shaped stepper succeed on nonzero mass,
keep the mass and the last velocity, and translate the last position by
`n • (dt • v)`. -/
theorem stepN_straight (dt : ℚ) (step : Particle → Option Particle)
    (hstep : ∀ p : Particle, p.m ≠ 0 → step p =
      some { p with rs := p.rs ++ [lastR p + dt • lastV p],
                    vs := p.vs ++ [lastV p] }) :
    ∀ (n : ℕ) (p : Particle), p.m ≠ 0 →
      stepN step n p ≠ none ∧
      ∀ p' : Particle, stepN step n p = some p' →
        p'.m = p.m ∧ lastV p' = lastV p ∧
        lastR p' = lastR p + ((n : ℚ) * dt) • lastV p := by
  intro n
  induction n with
  | zero =>
    intro p hm
    constructor
    · simp [stepN]
    · intro p' h
      simp only [stepN, Option.some.injEq] at h
      subst h
      simp
  | succ n ih =>
    intro p hm
    have hq := hstep p hm
    set q : Particle :=
      { p with rs := p.rs ++ [lastR p + dt • lastV p],
               vs := p.vs ++ [lastV p] } with hqdef
    have hmq : q.m ≠ 0 := hm
    obtain ⟨ihne, ihsome⟩ := ih q hmq
    constructor
    · intro hnone
      rw [stepN, hq] at hnone
      exact ihne hnone
    · intro p' h
      have h' : stepN step n q = some p' := by rw [stepN, hq] at h; exact h
      obtain ⟨hm', hv, hr⟩ := ihsome p' h'
      have hvq : lastV q = lastV p := lastV_update p _ _
      have hrq : lastR q = lastR p + dt • lastV p := lastR_update p _ _
      refine ⟨hm', by rw [hv, hvq], ?_⟩
      rw [hr, hvq, hrq]
      push_cast
      rw [add_mul, one_mul, add_smul]
      abel

/-- C5: with all field functions returning the zero vector, both the
Euler and the RK4 integrator never fail on a particle of nonzero mass,
leave the velocity constant, and advance the position linearly:
after `n` steps the last position is `r_0 + (n*dt) • v_0`. -/
theorem C5_zero_fields :
    ∀ (dt : ℚ) (n : ℕ) (p : Particle), p.m ≠ 0 →
      (stepN (Particle.updateEuler zeroField zeroField zeroField dt) n p ≠ none ∧
        ∀ p' : Particle,
          stepN (Particle.updateEuler zeroField zeroField zeroField dt) n p =
            some p' →
          lastV p' = lastV p ∧
          lastR p' = lastR p + ((n : ℚ) * dt) • lastV p) ∧
      (stepN (Particle.updateRK4 zeroField zeroField zeroField dt) n p ≠ none ∧
        ∀ p' : Particle,
          stepN (Particle.updateRK4 zeroField zeroField zeroField dt) n p =
            some p' →
          lastV p' = lastV p ∧
          lastR p' = lastR p + ((n : ℚ) * dt) • lastV p) := by
  intro dt n p hm
  obtain ⟨he1, he2⟩ := stepN_straight dt _ (euler_zeroField dt · ·) n p hm
  obtain ⟨hk1, hk2⟩ := stepN_straight dt _ (rk4_zeroField dt · ·) n p hm
  exact ⟨⟨he1, fun p' h => ⟨(he2 p' h).2.1, (he2 p' h).2.2⟩⟩,
         ⟨hk1, fun p' h => ⟨(hk2 p' h).2.1, (hk2 p' h).2.2⟩⟩⟩

/-- The result of two zero-field steps on `pUnit`. -/
def pUnit2 : Particle :=
  ⟨1, 1, [(0, 0, 0), (1, 0, 0), (2, 0, 0)], [(1, 0, 0), (1, 0, 0), (1, 0, 0)]⟩

/-- C5 witness: `C5_zero_fields` applied to `pUnit` (mass 1 ≠ 0) with
`dt = 1` and `n = 2`: velocity stays `(1,0,0)` and the position reaches
`(2,0,0) = r_0 + 2·1·v_0`. -/
theorem C5_zero_fields_witness :
    pUnit.m ≠ 0 ∧
    stepN (Particle.updateEuler zeroField zeroField zeroField 1) 2 pUnit =
      some pUnit2 ∧
    lastV pUnit2 = lastV pUnit ∧
    lastR pUnit2 = lastR pUnit + (((2 : ℕ) : ℚ) * 1) • lastV pUnit := by
  have hm : pUnit.m ≠ 0 := by norm_num [pUnit]
  have h : stepN (Particle.updateEuler zeroField zeroField zeroField 1) 2 pUnit =
      some pUnit2 := by
    norm_num [stepN, Particle.updateEuler, pUnit, pUnit2, lastR, lastV, a,
      zeroField, cross, Prod.ext_iff]
  exact ⟨hm, h, ((C5_zero_fields 1 2 pUnit hm).1).2 pUnit2 h⟩

/-- Mapping the trivial step over a list never fails. -/
theorem mapOpt_pure {α : Type} (ps : List α) :
    mapOpt (fun x => some x) ps = some ps := by
  induction ps with
  | nil => rfl
  | cons p rest ih => simp [mapOpt, ih]

/-- Sequencing two optional maps equals one optional map of the
sequenced steps (failure is a single `none` either way). -/
theorem mapOpt_bind {α β γ : Type} (f : α → Option β) (g : β → Option γ)
    (ps : List α) :
    Option.bind (mapOpt f ps) (mapOpt g) =
      mapOpt (fun p => Option.bind (f p) g) ps := by
  induction ps with
  | nil => rfl
  | cons p rest ih =>
    cases hf : f p with
    | none => simp [mapOpt, hf]
    | some q =>
      cases hrest : mapOpt f rest with
      | none => cases hg : g q <;> simp [mapOpt, hf, hrest, hg, ← ih]
      | some qs => cases hg : g q <;> simp [mapOpt, hf, hrest, hg, ← ih]

/-- The driver's step-outer/particle-inner double loop computes, for each
particle independently and in collection order, `n` successive steps of
that particle. -/
theorem runLoop_eq_mapOpt (step : Particle → Option Particle) :
    ∀ (n : ℕ) (ps : List Particle),
      runLoop step n ps = mapOpt (stepN step n) ps := by
  intro n
  induction n with
  | zero =>
    intro ps
    have h0 : stepN step 0 = fun p => some p := funext fun p => rfl
    rw [runLoop, h0, mapOpt_pure]
  | succ n ih =>
    intro ps
    have hsucc : mapOpt (stepN step (n + 1)) ps =
        Option.bind (mapOpt step ps) (mapOpt (stepN step n)) := by
      rw [mapOpt_bind]
      congr 1
      funext p
      cases h : step p <;> simp [stepN, h]
    cases hm : mapOpt step ps with
    | none =>
      rw [runLoop, hm, hsucc, hm]
      rfl
    | some qs =>
      rw [runLoop, hm, hsucc, hm]
      exact ih qs

/-- C6 counterexample: at `totalTime = -1`, `dt = 2` the step count the
driver computes (`int(t/dt)`, truncation toward zero, here `0`) differs
from `⌊totalTime/dt⌋ = -1`. -/
theorem C6_step_count_cx : mainStepCount (-1) 2 ≠ ⌊((-1 : ℚ) / 2)⌋ := by
  have h1 : mainStepCount (-1) 2 = 0 := by norm_num [mainStepCount, pyInt]
  have h2 : ⌊((-1 : ℚ) / 2)⌋ = -1 := by norm_num
  rw [h1, h2]
  decide

/-- C6 amended: the driver computes the step count as `int(t/dt)`
(truncation toward zero, which agrees with `⌊t/dt⌋` whenever
`t/dt ≥ 0`) and then each particle independently receives exactly
`max(n, 0)` integration steps of the selected integrator, in collection
order. -/
theorem C6_run_steps :
    ∀ (EF BF GF : Vec3 → Vec3) (ps : List Particle) (t dt : ℚ)
      (integrator : String), dt ≠ 0 →
      mainRun EF BF GF ps t dt integrator =
        mapOpt (stepN (stepOf EF BF GF integrator dt)
          (mainStepCount t dt).toNat) ps ∧
      (0 ≤ t / dt → mainStepCount t dt = ⌊t / dt⌋) := by
  intro EF BF GF ps t dt integ hdt
  refine ⟨runLoop_eq_mapOpt _ _ _, fun h => ?_⟩
  simp [mainStepCount, pyInt, h]

/-- C6 witness: the amended claim instantiated at `t = 2`, `dt = 1 ≠ 0`,
one particle, Euler. -/
theorem C6_run_steps_witness :
    (1 : ℚ) ≠ 0 ∧
    mainRun zeroField zeroField zeroField [pUnit] 2 1 "euler" =
      mapOpt (stepN (stepOf zeroField zeroField zeroField "euler" 1)
        (mainStepCount 2 1).toNat) [pUnit] ∧
    (0 ≤ (2 : ℚ) / 1 → mainStepCount 2 1 = ⌊(2 : ℚ) / 1⌋) :=
  ⟨by norm_num,
   C6_run_steps zeroField zeroField zeroField [pUnit] 2 1 "euler" (by norm_num)⟩

/-- C7: what the code actually does for a mass-0 particle.  Construction
stores `m = 0` unchecked; both steppers raise (return `none`, the model
of `ZeroDivisionError` from `q/m`) without appending anything; a run with
at least one step therefore aborts with that error, while a run whose
step count is zero finishes without raising any error at all — contrary
to the claimed fail-fast invalid-configuration error before any step. -/
theorem C7_mass_zero_behavior :
    pMass0.m = 0 ∧
    Particle.updateEuler zeroField zeroField zeroField 1 pMass0 = none ∧
    Particle.updateRK4 zeroField zeroField zeroField 1 pMass0 = none ∧
    mainRun zeroField zeroField zeroField [pMass0] 1 1 "euler" = none ∧
    mainRun zeroField zeroField zeroField [pMass0] 0 1 "euler" =
      some [pMass0] := by
  refine ⟨rfl, ?_, ?_, ?_, ?_⟩
  · norm_num [Particle.updateEuler, pMass0]
  · norm_num [Particle.updateRK4, pMass0]
  · have hstep : stepOf zeroField zeroField zeroField "euler" 1 =
        Particle.updateEuler zeroField zeroField zeroField 1 := by
      simp [stepOf]
    norm_num [mainRun, mainStepCount, pyInt, runLoop, mapOpt, hstep,
      Particle.updateEuler, pMass0]
  · norm_num [mainRun, mainStepCount, pyInt, runLoop]

/-- C8: a successful Euler or RK4 step leaves the particle's charge and
mass unchanged and only appends to the histories: the first
`len(old history)` entries of each new history are exactly the old
history. -/
theorem C8_frame :
    ∀ (EF BF GF : Vec3 → Vec3) (dt : ℚ) (p p' : Particle),
      (Particle.updateEuler EF BF GF dt p = some p' →
        p'.q = p.q ∧ p'.m = p.m ∧
        p'.rs.take p.rs.length = p.rs ∧ p'.vs.take p.vs.length = p.vs) ∧
      (Particle.updateRK4 EF BF GF dt p = some p' →
        p'.q = p.q ∧ p'.m = p.m ∧
        p'.rs.take p.rs.length = p.rs ∧ p'.vs.take p.vs.length = p.vs) := by
  intro EF BF GF dt p p'
  constructor
  · intro h
    obtain ⟨-, rfl⟩ := updateEuler_some EF BF GF dt p p' h
    exact ⟨rfl, rfl, List.take_left _ _, List.take_left _ _⟩
  · intro h
    obtain ⟨-, rfl⟩ := updateRK4_some EF BF GF dt p p' h
    exact ⟨rfl, rfl, List.take_left _ _, List.take_left _ _⟩

/-- C8 witness: `C8_frame` applied to the concrete Euler step
`pUnit → pUnit1` (zero fields, dt = 1). -/
theorem C8_frame_witness :
    Particle.updateEuler zeroField zeroField zeroField 1 pUnit = some pUnit1 ∧
    pUnit1.q = pUnit.q ∧ pUnit1.m = pUnit.m ∧
    pUnit1.rs.take pUnit.rs.length = pUnit.rs ∧
    pUnit1.vs.take pUnit.vs.length = pUnit.vs := by
  have h : Particle.updateEuler zeroField zeroField zeroField 1 pUnit =
      some pUnit1 := by
    norm_num [Particle.updateEuler, pUnit, pUnit1, lastR, lastV, a, zeroField,
      cross, Prod.ext_iff]
  exact ⟨h, (C8_frame zeroField zeroField zeroField 1 pUnit pUnit1).1 h⟩

/-- Two particles with equal components are equal. -/
theorem particle_eq_of_fields {p₁ p₂ : Particle} (hq : p₁.q = p₂.q)
    (hm : p₁.m = p₂.m) (hrs : p₁.rs = p₂.rs) (hvs : p₁.vs = p₂.vs) :
    p₁ = p₂ := by
  cases p₁
  cases p₂
  simp_all

/-- C9: the run is deterministic — two runs on componentwise-identical
particle lists with the same totalTime, dt and integrator string produce
identical output histories (the model is a pure function of these
inputs; the source has no randomness and no concurrency). -/
theorem C9_determinism :
    ∀ (EF BF GF : Vec3 → Vec3) (t dt : ℚ) (integrator : String)
      (ps₁ ps₂ : List Particle),
      List.Forall₂ (fun p₁ p₂ : Particle =>
        p₁.q = p₂.q ∧ p₁.m = p₂.m ∧ p₁.rs = p₂.rs ∧ p₁.vs = p₂.vs) ps₁ ps₂ →
      mainRun EF BF GF ps₁ t dt integrator =
        mainRun EF BF GF ps₂ t dt integrator := by
  intro EF BF GF t dt integ ps₁ ps₂ hfa
  have heq : ps₁ = ps₂ := by
    induction hfa with
    | nil => rfl
    | cons h _ ih =>
      rw [particle_eq_of_fields h.1 h.2.1 h.2.2.1 h.2.2.2, ih]
  rw [heq]

/-- C9 witness: `C9_determinism` at a concrete singleton list, `t = 2`,
`dt = 1`, Euler. -/
theorem C9_determinism_witness :
    List.Forall₂ (fun p₁ p₂ : Particle =>
      p₁.q = p₂.q ∧ p₁.m = p₂.m ∧ p₁.rs = p₂.rs ∧ p₁.vs = p₂.vs)
      [pUnit] [pUnit] ∧
    mainRun zeroField zeroField zeroField [pUnit] 2 1 "euler" =
      mainRun zeroField zeroField zeroField [pUnit] 2 1 "euler" :=
  ⟨List.Forall₂.cons ⟨rfl, rfl, rfl, rfl⟩ List.Forall₂.nil,
   C9_determinism zeroField zeroField zeroField 2 1 "euler" [pUnit] [pUnit]
     (List.Forall₂.cons ⟨rfl, rfl, rfl, rfl⟩ List.Forall₂.nil)⟩

/-- C10: the pair appended by a single Euler or RK4 step depends only on
the particle's charge, mass, dt and the last entries of the two
histories: particles agreeing on those append identical new (position,
velocity) pairs, regardless of their earlier history entries. -/
theorem C10_local_state :
    ∀ (EF BF GF : Vec3 → Vec3) (dt : ℚ) (p₁ p₂ : Particle),
      p₁.q = p₂.q → p₁.m = p₂.m → lastR p₁ = lastR p₂ → lastV p₁ = lastV p₂ →
      (∀ q₁ q₂ : Particle,
          Particle.updateEuler EF BF GF dt p₁ = some q₁ →
          Particle.updateEuler EF BF GF dt p₂ = some q₂ →
          lastR q₁ = lastR q₂ ∧ lastV q₁ = lastV q₂) ∧
      (∀ q₁ q₂ : Particle,
          Particle.updateRK4 EF BF GF dt p₁ = some q₁ →
          Particle.updateRK4 EF BF GF dt p₂ = some q₂ →
          lastR q₁ = lastR q₂ ∧ lastV q₁ = lastV q₂) := by
  intro EF BF GF dt p₁ p₂ hq hm hr hv
  constructor
  · intro q₁ q₂ h₁ h₂
    obtain ⟨-, rfl⟩ := updateEuler_some EF BF GF dt p₁ q₁ h₁
    obtain ⟨-, rfl⟩ := updateEuler_some EF BF GF dt p₂ q₂ h₂
    rw [lastR_update, lastR_update, lastV_update, lastV_update,
      hq, hm, hr, hv]
    exact ⟨rfl, rfl⟩
  · intro q₁ q₂ h₁ h₂
    obtain ⟨-, rfl⟩ := updateRK4_some EF BF GF dt p₁ q₁ h₁
    obtain ⟨-, rfl⟩ := updateRK4_some EF BF GF dt p₂ q₂ h₂
    rw [lastR_update, lastR_update, lastV_update, lastV_update,
      hq, hm, hr, hv]
    exact ⟨rfl, rfl⟩

/-- A particle with the same charge, mass and last history entries as
`pUnit` but longer, different earlier history. -/
def pLong : Particle :=
  ⟨1, 1, [(5, 5, 5), (0, 0, 0)], [(3, 3, 3), (1, 0, 0)]⟩

/-- The result of one zero-field Euler step on `pLong`. -/
def pLong1 : Particle :=
  ⟨1, 1, [(5, 5, 5), (0, 0, 0), (1, 0, 0)], [(3, 3, 3), (1, 0, 0), (1, 0, 0)]⟩

/-- C10 witness: `pLong` and `pUnit` differ in their earlier history
entries but share charge, mass and last entries; one Euler step appends
the same (position, velocity) pair to both. -/
theorem C10_local_state_witness :
    pLong.q = pUnit.q ∧ pLong.m = pUnit.m ∧
    lastR pLong = lastR pUnit ∧ lastV pLong = lastV pUnit ∧
    Particle.updateEuler zeroField zeroField zeroField 1 pLong = some pLong1 ∧
    Particle.updateEuler zeroField zeroField zeroField 1 pUnit = some pUnit1 ∧
    lastR pLong1 = lastR pUnit1 ∧ lastV pLong1 = lastV pUnit1 := by
  have hq : pLong.q = pUnit.q := rfl
  have hm : pLong.m = pUnit.m := rfl
  have hr : lastR pLong = lastR pUnit := rfl
  have hv : lastV pLong = lastV pUnit := rfl
  have h₁ : Particle.updateEuler zeroField zeroField zeroField 1 pLong =
      some pLong1 := by
    norm_num [Particle.updateEuler, pLong, pLong1, lastR, lastV, a, zeroField,
      cross, List.getLastD, Prod.ext_iff]
  have h₂ : Particle.updateEuler zeroField zeroField zeroField 1 pUnit =
      some pUnit1 := by
    norm_num [Particle.updateEuler, pUnit, pUnit1, lastR, lastV, a, zeroField,
      cross, Prod.ext_iff]
  exact ⟨hq, hm, hr, hv, h₁, h₂,
    (C10_local_state zeroField zeroField zeroField 1 pLong pUnit
      hq hm hr hv).1 pLong1 pUnit1 h₁ h₂⟩

end PIF
